import Mathlib

/-!
Verification of the two core algorithms of the repository:
the fixed-layout binary account-record decoder `deserialize_account_data`
(src/main.py, lines 367-412) and the Rust function extractor
(`RustParser.extract_docstring`, `RustParser.extract_attributes`,
`RustParser.parse_file`, src/main.py, lines 29-98).

The decoder is embedded over `List Nat` byte buffers with Python's
sequence semantics: slices clamp to the buffer, `int.from_bytes` accepts
any length, and only indexing (`data[i]`) and the 32-byte `Pubkey`
constructor can fail on short input.  Python `str` values are represented
by their UTF-8 byte sequences (UTF-8 decoding is a bijection between
valid byte sequences and strings, so record equality is unaffected), and
the two public keys by their raw 32 bytes (`str(Pubkey(b))` is an
injective base58 rendering of exactly those bytes).
-/

/-- Error taxonomy of the decoder, from the spec's section 7: a failed
byte-bound (Python `IndexError` / `Pubkey` length `ValueError`) is a
`truncatedRecord`; a failed UTF-8 decode (Python `UnicodeDecodeError`) is
an `invalidEncoding` tagged with the field being decoded. -/
inductive DecodeError where
  | truncatedRecord : DecodeError
  | invalidEncoding : String → DecodeError
deriving DecidableEq, Repr

/-- Python slice `data[a:b]` for `0 ≤ a ≤ b`: clamps to the buffer,
never fails. -/
def pySlice (data : List Nat) (a b : Nat) : List Nat :=
  (data.drop a).take (b - a)

/-- Python `int.from_bytes(bs, 'little')`: little-endian value of any
number of bytes (0 bytes gives 0). -/
def leFromBytes (bs : List Nat) : Nat :=
  bs.foldr (fun b acc => b + 256 * acc) 0

/-- Python indexing `data[i]` on bytes: the byte, or `IndexError` when
out of range (mapped to `truncatedRecord`). -/
def pyIndex (data : List Nat) (i : Nat) : Except DecodeError Nat :=
  if h : i < data.length then .ok (data.get ⟨i, h⟩) else .error .truncatedRecord

/-- solders `Pubkey(bs)`: requires exactly 32 bytes (`ValueError`
otherwise, mapped to `truncatedRecord`); `str(...)` renders them
injectively, so the embedding keeps the raw bytes. -/
def pubkeyFromBytes (bs : List Nat) : Except DecodeError (List Nat) :=
  if bs.length = 32 then .ok bs else .error .truncatedRecord

/-- Validity of a byte sequence under Python's strict `utf-8` codec:
rejects stray continuation bytes, overlong forms, surrogates and code
points above U+10FFFF. -/
def validUtf8 : List Nat → Bool
  | [] => true
  | b :: rest =>
    if b < 0x80 then validUtf8 rest
    else if b < 0xC2 then false
    else if b < 0xE0 then
      match rest with
      | [] => false
      | b1 :: rest2 =>
        decide (0x80 ≤ b1 ∧ b1 < 0xC0) && validUtf8 rest2
    else if b < 0xF0 then
      match rest with
      | b1 :: b2 :: rest3 =>
        decide (0x80 ≤ b1 ∧ b1 < 0xC0) && decide (0x80 ≤ b2 ∧ b2 < 0xC0) &&
        !(decide (b = 0xE0) && decide (b1 < 0xA0)) &&
        !(decide (b = 0xED) && decide (0xA0 ≤ b1)) &&
        validUtf8 rest3
      | _ => false
    else if b < 0xF5 then
      match rest with
      | b1 :: b2 :: b3 :: rest4 =>
        decide (0x80 ≤ b1 ∧ b1 < 0xC0) && decide (0x80 ≤ b2 ∧ b2 < 0xC0) &&
        decide (0x80 ≤ b3 ∧ b3 < 0xC0) &&
        !(decide (b = 0xF0) && decide (b1 < 0x90)) &&
        !(decide (b = 0xF4) && decide (0x90 ≤ b1)) &&
        validUtf8 rest4
      | _ => false
    else false

/-- Python `bs.decode('utf-8')`: the string (kept as its UTF-8 bytes) or
`UnicodeDecodeError`, tagged with the field being decoded. -/
def pyDecodeUtf8 (field : String) (bs : List Nat) : Except DecodeError (List Nat) :=
  if validUtf8 bs then .ok bs else .error (.invalidEncoding field)

/-- `OtterVerifyBuildParams` (src/main.py, lines 328-337).  `address` and
`signer` hold the raw 32 key bytes (rendered by `str(Pubkey(...))` in
Python, an injective base58 presentation); the string fields hold the
UTF-8 bytes of the Python `str` values. -/
structure OtterVerifyBuildParams where
  address : List Nat
  signer : List Nat
  version : List Nat
  git_url : List Nat
  commit : List Nat
  args : List (List Nat)
  deploy_slot : Nat
  bump : Nat
deriving DecidableEq, Repr

/-- The args loop of `deserialize_account_data` (src/main.py, lines
392-397): for each of `n` iterations, read a 4-byte little-endian length
at the cursor, then that many bytes decoded as UTF-8, advancing the
cursor by `4 + arg_len`.  Returns the args and the final cursor. -/
def readArgs (data : List Nat) : Nat → Nat → Except DecodeError (List (List Nat) × Nat)
  | 0, pos => .ok ([], pos)
  | n + 1, pos =>
    let arg_len := leFromBytes (pySlice data pos (pos + 4))
    match pyDecodeUtf8 "args" (pySlice data (pos + 4) (pos + 4 + arg_len)) with
    | .error e => .error e
    | .ok arg =>
      match readArgs data n (pos + 4 + arg_len) with
      | .error e => .error e
      | .ok (rest, posEnd) => .ok (arg :: rest, posEnd)

/-- `deserialize_account_data` (src/main.py, lines 367-412), with
Python's sequence semantics made explicit: slices clamp, length prefixes
read whatever bytes the slice yields, and the only bound failures are the
two `Pubkey` constructions and the final `data[current_pos + 8]` index. -/
def deserialize_account_data (data : List Nat) :
    Except DecodeError OtterVerifyBuildParams :=
  match pubkeyFromBytes (pySlice data 0 32) with
  | .error e => .error e
  | .ok address =>
  match pubkeyFromBytes (pySlice data 32 64) with
  | .error e => .error e
  | .ok signer =>
  let version_len := leFromBytes (pySlice data 64 68)
  match pyDecodeUtf8 "version" (pySlice data 68 (68 + version_len)) with
  | .error e => .error e
  | .ok version =>
  let pos1 := 68 + version_len
  let git_url_len := leFromBytes (pySlice data pos1 (pos1 + 4))
  match pyDecodeUtf8 "git_url" (pySlice data (pos1 + 4) (pos1 + 4 + git_url_len)) with
  | .error e => .error e
  | .ok git_url =>
  let pos2 := pos1 + 4 + git_url_len
  let commit_len := leFromBytes (pySlice data pos2 (pos2 + 4))
  match pyDecodeUtf8 "commit" (pySlice data (pos2 + 4) (pos2 + 4 + commit_len)) with
  | .error e => .error e
  | .ok commit =>
  let pos3 := pos2 + 4 + commit_len
  let args_len := leFromBytes (pySlice data pos3 (pos3 + 4))
  match readArgs data args_len (pos3 + 4) with
  | .error e => .error e
  | .ok (args, posEnd) =>
  let deploy_slot := leFromBytes (pySlice data posEnd (posEnd + 8))
  match pyIndex data (posEnd + 8) with
  | .error e => .error e
  | .ok bump =>
  .ok { address := address, signer := signer, version := version,
        git_url := git_url, commit := commit, args := args,
        deploy_slot := deploy_slot, bump := bump }

instance {ε α : Type} [DecidableEq ε] [DecidableEq α] : DecidableEq (Except ε α)
  | .ok a, .ok b =>
    if h : a = b then .isTrue (by rw [h]) else .isFalse (fun c => h (Except.ok.inj c))
  | .error a, .error b =>
    if h : a = b then .isTrue (by rw [h]) else .isFalse (fun c => h (Except.error.inj c))
  | .ok _, .error _ => .isFalse (fun c => Except.noConfusion c)
  | .error _, .ok _ => .isFalse (fun c => Except.noConfusion c)

/-- Modelled from the spec: a read of `n` bytes at `pos` under the
byte-layout table of section 4.2, where "any read that would exceed the
buffer bound fails with `TruncatedRecord`". -/
def readBytes (data : List Nat) (pos n : Nat) : Except DecodeError (List Nat) :=
  if pos + n ≤ data.length then .ok (pySlice data pos (pos + n))
  else .error .truncatedRecord

/-- Modelled from the spec: the repeated args rows of the table
(`arg_len` as 4-byte little-endian u32, then `arg` as that many UTF-8
bytes), with every read bound-checked. -/
def readArgsSpec (data : List Nat) : Nat → Nat → Except DecodeError (List (List Nat) × Nat)
  | 0, pos => .ok ([], pos)
  | n + 1, pos =>
    match readBytes data pos 4 with
    | .error e => .error e
    | .ok lenB =>
    let arg_len := leFromBytes lenB
    match readBytes data (pos + 4) arg_len with
    | .error e => .error e
    | .ok argB =>
    match pyDecodeUtf8 "args" argB with
    | .error e => .error e
    | .ok arg =>
      match readArgsSpec data n (pos + 4 + arg_len) with
      | .error e => .error e
      | .ok (rest, posEnd) => .ok (arg :: rest, posEnd)

/-- Modelled from the spec: the decoder of section 4.2 read literally off
the byte-layout table — a sequential cursor from offset 0, fields in
table order, every read bound-checked (`TruncatedRecord` on shortfall),
every string field UTF-8 checked (`InvalidEncoding` on failure). -/
def decodeSpec (data : List Nat) : Except DecodeError OtterVerifyBuildParams :=
  match readBytes data 0 32 with
  | .error e => .error e
  | .ok address =>
  match readBytes data 32 32 with
  | .error e => .error e
  | .ok signer =>
  match readBytes data 64 4 with
  | .error e => .error e
  | .ok vlenB =>
  let version_len := leFromBytes vlenB
  match readBytes data 68 version_len with
  | .error e => .error e
  | .ok versionB =>
  match pyDecodeUtf8 "version" versionB with
  | .error e => .error e
  | .ok version =>
  let pos1 := 68 + version_len
  match readBytes data pos1 4 with
  | .error e => .error e
  | .ok glenB =>
  let git_url_len := leFromBytes glenB
  match readBytes data (pos1 + 4) git_url_len with
  | .error e => .error e
  | .ok gitB =>
  match pyDecodeUtf8 "git_url" gitB with
  | .error e => .error e
  | .ok git_url =>
  let pos2 := pos1 + 4 + git_url_len
  match readBytes data pos2 4 with
  | .error e => .error e
  | .ok clenB =>
  let commit_len := leFromBytes clenB
  match readBytes data (pos2 + 4) commit_len with
  | .error e => .error e
  | .ok commitB =>
  match pyDecodeUtf8 "commit" commitB with
  | .error e => .error e
  | .ok commit =>
  let pos3 := pos2 + 4 + commit_len
  match readBytes data pos3 4 with
  | .error e => .error e
  | .ok alenB =>
  let args_len := leFromBytes alenB
  match readArgsSpec data args_len (pos3 + 4) with
  | .error e => .error e
  | .ok (args, posEnd) =>
  match readBytes data posEnd 8 with
  | .error e => .error e
  | .ok slotB =>
  match readBytes data (posEnd + 8) 1 with
  | .error e => .error e
  | .ok bumpB =>
  .ok { address := address, signer := signer, version := version,
        git_url := git_url, commit := commit, args := args,
        deploy_slot := leFromBytes slotB, bump := leFromBytes bumpB }

/-- Little-endian encoding of `v` on `k` bytes (the table's u32/u64
cells). -/
def toLeBytes : Nat → Nat → List Nat
  | 0, _ => []
  | k + 1, v => v % 256 :: toLeBytes k (v / 256)

/-- Modelled from the spec: a length-prefixed string row of the table
(4-byte little-endian length, then the UTF-8 bytes). -/
def encodeString (s : List Nat) : List Nat := toLeBytes 4 s.length ++ s

/-- Modelled from the spec: serialization of an `OtterVerifyBuildParams`
according to the byte-layout table of section 4.2 (the repository
contains no encoder). -/
def serializeAccount (r : OtterVerifyBuildParams) : List Nat :=
  r.address ++ r.signer ++ encodeString r.version ++ encodeString r.git_url ++
  encodeString r.commit ++ toLeBytes 4 r.args.length ++
  (r.args.map encodeString).flatten ++ toLeBytes 8 r.deploy_slot ++
  toLeBytes 1 r.bump

/-- Field values encodable in the table: 32-byte keys, UTF-8-valid string
bytes whose lengths fit a u32, a u32 args count, a u64 slot, a u8 bump. -/
def WfRecord (r : OtterVerifyBuildParams) : Prop :=
  r.address.length = 32 ∧ r.signer.length = 32 ∧
  validUtf8 r.version = true ∧ r.version.length < 2 ^ 32 ∧
  validUtf8 r.git_url = true ∧ r.git_url.length < 2 ^ 32 ∧
  validUtf8 r.commit = true ∧ r.commit.length < 2 ^ 32 ∧
  (∀ a ∈ r.args, validUtf8 a = true ∧ a.length < 2 ^ 32) ∧
  r.args.length < 2 ^ 32 ∧ r.deploy_slot < 2 ^ 64 ∧ r.bump < 2 ^ 8

instance (r : OtterVerifyBuildParams) : Decidable (WfRecord r) := by
  unfold WfRecord; infer_instance

/-- The byte regions of the args elements that the decoder submits to
UTF-8 decoding, by the decoder's own cursor arithmetic. -/
def argRegions (data : List Nat) : Nat → Nat → List (String × List Nat)
  | 0, _ => []
  | n + 1, pos =>
    let arg_len := leFromBytes (pySlice data pos (pos + 4))
    ("args", pySlice data (pos + 4) (pos + 4 + arg_len)) ::
      argRegions data n (pos + 4 + arg_len)

/-- The (field name, byte region) pairs that `deserialize_account_data`
submits to UTF-8 decoding, in decoding order, by the decoder's own cursor
arithmetic. -/
def stringRegions (data : List Nat) : List (String × List Nat) :=
  let version_len := leFromBytes (pySlice data 64 68)
  let pos1 := 68 + version_len
  let git_url_len := leFromBytes (pySlice data pos1 (pos1 + 4))
  let pos2 := pos1 + 4 + git_url_len
  let commit_len := leFromBytes (pySlice data pos2 (pos2 + 4))
  let pos3 := pos2 + 4 + commit_len
  let args_len := leFromBytes (pySlice data pos3 (pos3 + 4))
  ("version", pySlice data 68 pos1) ::
  ("git_url", pySlice data (pos1 + 4) (pos1 + 4 + git_url_len)) ::
  ("commit", pySlice data (pos2 + 4) (pos2 + 4 + commit_len)) ::
  argRegions data args_len (pos3 + 4)

theorem pySlice_drop_take (data : List Nat) (p n : Nat) :
    pySlice data p (p + n) = (data.drop p).take n := by
  simp [pySlice, Nat.add_sub_cancel_left]

theorem pySlice_nil_of_le (data : List Nat) (a b : Nat) (h : data.length ≤ a) :
    pySlice data a b = [] := by
  simp [pySlice, List.drop_eq_nil_of_le h]

theorem pySlice_at (B mid suf : List Nat) (p n : Nat)
    (hd : B.drop p = mid ++ suf) (hn : mid.length = n) :
    pySlice B p (p + n) = mid := by
  rw [pySlice_drop_take, hd, List.take_left' hn]

theorem drop_step (B pre suf : List Nat) (p q : Nat)
    (h : B.drop p = pre ++ suf) (hpre : pre.length = q - p) (hpq : p ≤ q) :
    B.drop q = suf := by
  have h1 : B.drop q = (B.drop p).drop (q - p) := by
    rw [List.drop_drop]; congr 1; omega
  rw [h1, h, List.drop_left' hpre]

theorem pyIndex_of_drop (data : List Nat) (i b : Nat) (rest : List Nat)
    (h : data.drop i = b :: rest) : pyIndex data i = .ok b := by
  have hlen : i < data.length := by
    by_contra hc
    rw [List.drop_eq_nil_of_le (by omega)] at h
    exact List.noConfusion h
  have hb : data[i] = b := by
    have hne : data.drop i ≠ [] := by rw [h]; exact List.noConfusion
    have h2 := List.head_drop hne
    have h3 : (data.drop i).head hne = b := by
      have : (b :: rest).head (List.noConfusion) = b := rfl
      simp [h]
    rw [← h2, h3]
  simp [pyIndex, hlen, ← hb]

theorem leFromBytes_nil : leFromBytes [] = 0 := rfl

theorem leFromBytes_cons (b : Nat) (bs : List Nat) :
    leFromBytes (b :: bs) = b + 256 * leFromBytes bs := rfl

theorem toLeBytes_length (k v : Nat) : (toLeBytes k v).length = k := by
  induction k generalizing v with
  | zero => rfl
  | succ k ih => simp [toLeBytes, ih]

theorem leFromBytes_toLeBytes (k v : Nat) (h : v < 256 ^ k) :
    leFromBytes (toLeBytes k v) = v := by
  induction k generalizing v with
  | zero => simp [pow_zero] at h; simp [toLeBytes, leFromBytes_nil, h]
  | succ k ih =>
    have hdiv : v / 256 < 256 ^ k := by
      rw [Nat.div_lt_iff_lt_mul (by norm_num)]
      calc v < 256 ^ (k + 1) := h
        _ = 256 ^ k * 256 := by rw [pow_succ]
    rw [toLeBytes, leFromBytes_cons, ih _ hdiv, Nat.add_comm]
    exact Nat.div_add_mod v 256

theorem readArgs_encode (data : List Nat) (args : List (List Nat)) :
    ∀ (pos : Nat) (suf : List Nat),
    data.drop pos = (args.map encodeString).flatten ++ suf →
    (∀ a ∈ args, validUtf8 a = true ∧ a.length < 2 ^ 32) →
    readArgs data args.length pos =
      .ok (args, pos + ((args.map encodeString).flatten).length) := by
  induction args with
  | nil => intro pos suf _ _; simp [readArgs]
  | cons a as ih =>
    intro pos suf hd hv
    have hva := hv a (by simp)
    have hd' : data.drop pos =
        toLeBytes 4 a.length ++ (a ++ ((as.map encodeString).flatten ++ suf)) := by
      simpa [encodeString, List.append_assoc] using hd
    have hlen4 : pySlice data pos (pos + 4) = toLeBytes 4 a.length :=
      pySlice_at _ _ _ _ _ hd' (toLeBytes_length 4 a.length)
    have halen : leFromBytes (toLeBytes 4 a.length) = a.length :=
      leFromBytes_toLeBytes 4 a.length (by norm_num at hva ⊢; exact hva.2)
    have hd4 : data.drop (pos + 4) = a ++ ((as.map encodeString).flatten ++ suf) :=
      drop_step data (toLeBytes 4 a.length) _ pos (pos + 4) hd'
        (by rw [toLeBytes_length]; omega) (by omega)
    have hab : pySlice data (pos + 4) (pos + 4 + a.length) = a :=
      pySlice_at _ _ _ _ _ hd4 rfl
    have hd5 : data.drop (pos + 4 + a.length) = (as.map encodeString).flatten ++ suf :=
      drop_step data a _ (pos + 4) (pos + 4 + a.length) hd4 (by omega) (by omega)
    have hrec := ih (pos + 4 + a.length) suf hd5 (fun x hx => hv x (by simp [hx]))
    show readArgs data (as.length + 1) pos = _
    rw [readArgs]
    simp only [hlen4, halen, hab, pyDecodeUtf8, hva.1, if_true, hrec]
    simp [encodeString, List.length_append, toLeBytes_length]
    omega

theorem pySlice_at' (B mid suf : List Nat) (p b : Nat)
    (hd : B.drop p = mid ++ suf) (hn : mid.length = b - p) :
    pySlice B p b = mid := by
  rw [pySlice, hd, List.take_left' hn]

theorem decode_encode_aux (addr sig ver git com : List Nat)
    (args : List (List Nat)) (slot bump : Nat) (extra : List Nat)
    (haddr : addr.length = 32) (hsig : sig.length = 32)
    (hver : validUtf8 ver = true) (hverl : ver.length < 2 ^ 32)
    (hgit : validUtf8 git = true) (hgitl : git.length < 2 ^ 32)
    (hcom : validUtf8 com = true) (hcoml : com.length < 2 ^ 32)
    (hargs : ∀ a ∈ args, validUtf8 a = true ∧ a.length < 2 ^ 32)
    (hargl : args.length < 2 ^ 32) (hslot : slot < 2 ^ 64)
    (hbump : bump < 2 ^ 8) :
    deserialize_account_data
      (serializeAccount ⟨addr, sig, ver, git, com, args, slot, bump⟩ ++ extra) =
      .ok ⟨addr, sig, ver, git, com, args, slot, bump⟩ := by
  have hBe : serializeAccount ⟨addr, sig, ver, git, com, args, slot, bump⟩ ++ extra =
      addr ++ (sig ++ (toLeBytes 4 ver.length ++ (ver ++ (toLeBytes 4 git.length ++
      (git ++ (toLeBytes 4 com.length ++ (com ++ (toLeBytes 4 args.length ++
      ((args.map encodeString).flatten ++ (toLeBytes 8 slot ++
      (toLeBytes 1 bump ++ extra))))))))))) := by
    simp [serializeAccount, encodeString, List.append_assoc]
  set B := serializeAccount ⟨addr, sig, ver, git, com, args, slot, bump⟩ ++ extra with hB
  have d0 : B.drop 0 = addr ++ (sig ++ (toLeBytes 4 ver.length ++ (ver ++
      (toLeBytes 4 git.length ++ (git ++ (toLeBytes 4 com.length ++ (com ++
      (toLeBytes 4 args.length ++ ((args.map encodeString).flatten ++
      (toLeBytes 8 slot ++ (toLeBytes 1 bump ++ extra))))))))))) := by
    rw [List.drop_zero]; exact hBe
  have d32 := drop_step B addr _ 0 32 d0 (by omega) (by omega)
  have d64 := drop_step B sig _ 32 64 d32 (by omega) (by omega)
  have d68 := drop_step B (toLeBytes 4 ver.length) _ 64 68 d64
    (by rw [toLeBytes_length]) (by omega)
  have dp4 := drop_step B ver _ 68 (68 + ver.length) d68 (by omega) (by omega)
  have dp5 := drop_step B (toLeBytes 4 git.length) _ (68 + ver.length)
    (68 + ver.length + 4) dp4 (by rw [toLeBytes_length]; omega) (by omega)
  have dp6 := drop_step B git _ (68 + ver.length + 4)
    (68 + ver.length + 4 + git.length) dp5 (by omega) (by omega)
  have dp7 := drop_step B (toLeBytes 4 com.length) _
    (68 + ver.length + 4 + git.length) (68 + ver.length + 4 + git.length + 4)
    dp6 (by rw [toLeBytes_length]; omega) (by omega)
  have dp8 := drop_step B com _ (68 + ver.length + 4 + git.length + 4)
    (68 + ver.length + 4 + git.length + 4 + com.length) dp7 (by omega) (by omega)
  have dp9 := drop_step B (toLeBytes 4 args.length) _
    (68 + ver.length + 4 + git.length + 4 + com.length)
    (68 + ver.length + 4 + git.length + 4 + com.length + 4) dp8
    (by rw [toLeBytes_length]; omega) (by omega)
  have dpE := drop_step B (args.map encodeString).flatten _
    (68 + ver.length + 4 + git.length + 4 + com.length + 4)
    (68 + ver.length + 4 + git.length + 4 + com.length + 4 +
      ((args.map encodeString).flatten).length) dp9 (by omega) (by omega)
  have dpE8 := drop_step B (toLeBytes 8 slot) _
    (68 + ver.length + 4 + git.length + 4 + com.length + 4 +
      ((args.map encodeString).flatten).length)
    (68 + ver.length + 4 + git.length + 4 + com.length + 4 +
      ((args.map encodeString).flatten).length + 8) dpE
    (by rw [toLeBytes_length]; omega) (by omega)
  have sA : pubkeyFromBytes (pySlice B 0 32) = .ok addr := by
    rw [pySlice_at' B addr _ 0 32 d0 (by omega)]
    simp [pubkeyFromBytes, haddr]
  have sS : pubkeyFromBytes (pySlice B 32 64) = .ok sig := by
    rw [pySlice_at' B sig _ 32 64 d32 (by omega)]
    simp [pubkeyFromBytes, hsig]
  have hvl : leFromBytes (pySlice B 64 68) = ver.length := by
    rw [pySlice_at' B (toLeBytes 4 ver.length) _ 64 68 d64
      (by rw [toLeBytes_length])]
    exact leFromBytes_toLeBytes 4 _ (by norm_num at hverl ⊢; exact hverl)
  have sV : pyDecodeUtf8 "version" (pySlice B 68 (68 + ver.length)) = .ok ver := by
    rw [pySlice_at' B ver _ 68 (68 + ver.length) d68 (by omega)]
    simp [pyDecodeUtf8, hver]
  have hgl : leFromBytes (pySlice B (68 + ver.length) (68 + ver.length + 4)) =
      git.length := by
    rw [pySlice_at' B (toLeBytes 4 git.length) _ _ _ dp4
      (by rw [toLeBytes_length]; omega)]
    exact leFromBytes_toLeBytes 4 _ (by norm_num at hgitl ⊢; exact hgitl)
  have sG : pyDecodeUtf8 "git_url" (pySlice B (68 + ver.length + 4)
      (68 + ver.length + 4 + git.length)) = .ok git := by
    rw [pySlice_at' B git _ _ _ dp5 (by omega)]
    simp [pyDecodeUtf8, hgit]
  have hcl : leFromBytes (pySlice B (68 + ver.length + 4 + git.length)
      (68 + ver.length + 4 + git.length + 4)) = com.length := by
    rw [pySlice_at' B (toLeBytes 4 com.length) _ _ _ dp6
      (by rw [toLeBytes_length]; omega)]
    exact leFromBytes_toLeBytes 4 _ (by norm_num at hcoml ⊢; exact hcoml)
  have sC : pyDecodeUtf8 "commit" (pySlice B (68 + ver.length + 4 + git.length + 4)
      (68 + ver.length + 4 + git.length + 4 + com.length)) = .ok com := by
    rw [pySlice_at' B com _ _ _ dp7 (by omega)]
    simp [pyDecodeUtf8, hcom]
  have hal : leFromBytes (pySlice B (68 + ver.length + 4 + git.length + 4 + com.length)
      (68 + ver.length + 4 + git.length + 4 + com.length + 4)) = args.length := by
    rw [pySlice_at' B (toLeBytes 4 args.length) _ _ _ dp8
      (by rw [toLeBytes_length]; omega)]
    exact leFromBytes_toLeBytes 4 _ (by norm_num at hargl ⊢; exact hargl)
  have sArgs : readArgs B args.length
      (68 + ver.length + 4 + git.length + 4 + com.length + 4) =
      .ok (args, 68 + ver.length + 4 + git.length + 4 + com.length + 4 +
        ((args.map encodeString).flatten).length) :=
    readArgs_encode B args _ _ dp9 hargs
  have hslotv : leFromBytes (pySlice B
      (68 + ver.length + 4 + git.length + 4 + com.length + 4 +
        ((args.map encodeString).flatten).length)
      (68 + ver.length + 4 + git.length + 4 + com.length + 4 +
        ((args.map encodeString).flatten).length + 8)) = slot := by
    rw [pySlice_at' B (toLeBytes 8 slot) _ _ _ dpE
      (by rw [toLeBytes_length]; omega)]
    exact leFromBytes_toLeBytes 8 _ (by norm_num at hslot ⊢; exact hslot)
  have sBump : pyIndex B
      (68 + ver.length + 4 + git.length + 4 + com.length + 4 +
        ((args.map encodeString).flatten).length + 8) = .ok bump := by
    have hb1 : toLeBytes 1 bump ++ extra = bump :: extra := by
      have : bump % 256 = bump := Nat.mod_eq_of_lt (by norm_num at hbump ⊢; exact hbump)
      simp [toLeBytes, this]
    rw [hb1] at dpE8
    exact pyIndex_of_drop B _ bump extra dpE8
  simp only [deserialize_account_data, sA, sS, hvl, sV, hgl, sG, hcl, sC, hal,
    sArgs, hslotv, sBump]

theorem pySlice_length_of_le (data : List Nat) (pos n : Nat)
    (h : pos + n ≤ data.length) : (pySlice data pos (pos + n)).length = n := by
  simp [pySlice]; omega

theorem readBytes_ok_iff (data : List Nat) (pos n : Nat) (bs : List Nat) :
    readBytes data pos n = .ok bs ↔
      pos + n ≤ data.length ∧ pySlice data pos (pos + n) = bs := by
  unfold readBytes
  split <;> simp_all

theorem pyIndex_eq (data : List Nat) (p : Nat) (hp : p < data.length) :
    pyIndex data p = .ok (leFromBytes (pySlice data p (p + 1))) := by
  have hne : data.drop p ≠ [] := by
    intro hc
    rw [List.drop_eq_nil_iff] at hc
    omega
  obtain ⟨b, rest, hbr⟩ : ∃ b rest, data.drop p = b :: rest := by
    cases hd : data.drop p with
    | nil => exact absurd hd hne
    | cons b rest => exact ⟨b, rest, rfl⟩
  have h1 : pySlice data p (p + 1) = [b] := by
    rw [pySlice_drop_take, hbr]
    rfl
  rw [h1, pyIndex_of_drop data p b rest hbr]
  simp [leFromBytes_cons, leFromBytes_nil]

theorem readArgsSpec_to_py (data : List Nat) :
    ∀ (n pos : Nat) (as : List (List Nat)) (p : Nat),
    readArgsSpec data n pos = .ok (as, p) → readArgs data n pos = .ok (as, p) := by
  intro n
  induction n with
  | zero => intro pos as p h; simpa [readArgsSpec, readArgs] using h
  | succ n ih =>
    intro pos as p h
    unfold readArgsSpec at h
    dsimp only at h
    split at h
    · exact absurd h (by simp)
    rename_i lenB hlen
    split at h
    · exact absurd h (by simp)
    rename_i argB harg
    split at h
    · exact absurd h (by simp)
    rename_i arg hdec
    split at h
    · exact absurd h (by simp)
    rename_i rest posEnd hrec
    rw [readBytes_ok_iff] at hlen harg
    rw [readArgs]
    simp only [hlen.2, harg.2, hdec, ih _ _ _ hrec]
    simpa using h

theorem readArgs_mono (data : List Nat) :
    ∀ (n pos : Nat) (as : List (List Nat)) (p : Nat),
    readArgs data n pos = .ok (as, p) → pos ≤ p := by
  intro n
  induction n with
  | zero => intro pos as p h; simp [readArgs] at h; omega
  | succ n ih =>
    intro pos as p h
    unfold readArgs at h
    dsimp only at h
    split at h
    · exact absurd h (by simp)
    rename_i arg hdec
    split at h
    · exact absurd h (by simp)
    rename_i rest posEnd hrec
    have := ih _ _ _ hrec
    simp at h
    omega

theorem readArgs_to_spec (data : List Nat) :
    ∀ (n pos : Nat) (as : List (List Nat)) (p : Nat),
    readArgs data n pos = .ok (as, p) → p ≤ data.length →
    readArgsSpec data n pos = .ok (as, p) := by
  intro n
  induction n with
  | zero => intro pos as p h _; simpa [readArgsSpec, readArgs] using h
  | succ n ih =>
    intro pos as p h hp
    unfold readArgs at h
    dsimp only at h
    split at h
    · exact absurd h (by simp)
    rename_i arg hdec
    split at h
    · exact absurd h (by simp)
    rename_i rest posEnd hrec
    have hmono := readArgs_mono data _ _ _ _ hrec
    have hfin : arg :: rest = as ∧ posEnd = p := by simpa using h
    have hb1 : pos + 4 ≤ data.length := by omega
    have hb2 : pos + 4 + leFromBytes (pySlice data pos (pos + 4)) ≤ data.length := by
      omega
    unfold readArgsSpec
    rw [(readBytes_ok_iff data pos 4 _).mpr ⟨hb1, rfl⟩]
    dsimp only
    rw [(readBytes_ok_iff data (pos + 4) _ _).mpr ⟨hb2, rfl⟩]
    dsimp only
    simp only [hdec, ih _ _ _ hrec (by omega)]
    simp [hfin.1, hfin.2]

theorem pubkeyFromBytes_ok_iff (bs out : List Nat) :
    pubkeyFromBytes bs = .ok out ↔ bs.length = 32 ∧ bs = out := by
  unfold pubkeyFromBytes
  split <;> simp_all

theorem pyDecodeUtf8_ok_iff (f : String) (bs out : List Nat) :
    pyDecodeUtf8 f bs = .ok out ↔ validUtf8 bs = true ∧ bs = out := by
  unfold pyDecodeUtf8
  split <;> simp_all

theorem pyIndex_ok_bound (data : List Nat) (i b : Nat)
    (h : pyIndex data i = .ok b) : i < data.length := by
  unfold pyIndex at h
  split at h
  · assumption
  · exact absurd h (by simp)

theorem pySlice_length (data : List Nat) (a b : Nat) :
    (pySlice data a b).length = min (b - a) (data.length - a) := by
  simp [pySlice]

theorem decodeSpec_ok_imp_py (data : List Nat) (r : OtterVerifyBuildParams)
    (h : decodeSpec data = .ok r) : deserialize_account_data data = .ok r := by
  unfold decodeSpec at h
  split at h
  · exact absurd h (by simp)
  rename_i addrB hA
  try dsimp only at h
  split at h
  · exact absurd h (by simp)
  rename_i sigB hS
  try dsimp only at h
  split at h
  · exact absurd h (by simp)
  rename_i vlenB hVL
  try dsimp only at h
  split at h
  · exact absurd h (by simp)
  rename_i verB hVB
  try dsimp only at h
  split at h
  · exact absurd h (by simp)
  rename_i ver hVD
  try dsimp only at h
  split at h
  · exact absurd h (by simp)
  rename_i glenB hGL
  try dsimp only at h
  split at h
  · exact absurd h (by simp)
  rename_i gitB hGB
  try dsimp only at h
  split at h
  · exact absurd h (by simp)
  rename_i git hGD
  try dsimp only at h
  split at h
  · exact absurd h (by simp)
  rename_i clenB hCL
  try dsimp only at h
  split at h
  · exact absurd h (by simp)
  rename_i comB hCB
  try dsimp only at h
  split at h
  · exact absurd h (by simp)
  rename_i com hCD
  try dsimp only at h
  split at h
  · exact absurd h (by simp)
  rename_i alenB hAL
  try dsimp only at h
  split at h
  · exact absurd h (by simp)
  rename_i args posEnd hAR
  try dsimp only at h
  split at h
  · exact absurd h (by simp)
  rename_i slotB hSL
  try dsimp only at h
  split at h
  · exact absurd h (by simp)
  rename_i bumpB hBU
  rw [readBytes_ok_iff] at hA hS hVL hVB hGL hGB hCL hCB hAL hSL hBU
  norm_num at hA hS hVL
  have sA : pubkeyFromBytes (pySlice data 0 32) = .ok addrB := by
    rw [pubkeyFromBytes_ok_iff]
    exact ⟨by simpa using pySlice_length_of_le data 0 32 (by omega), hA.2⟩
  have sS : pubkeyFromBytes (pySlice data 32 64) = .ok sigB := by
    rw [pubkeyFromBytes_ok_iff]
    exact ⟨by simpa using pySlice_length_of_le data 32 32 (by omega), hS.2⟩
  have hvl : leFromBytes (pySlice data 64 68) = leFromBytes vlenB := by rw [hVL.2]
  have sV : pyDecodeUtf8 "version" (pySlice data 68 (68 + leFromBytes vlenB)) =
      .ok ver := by rw [hVB.2]; exact hVD
  have hgl : leFromBytes (pySlice data (68 + leFromBytes vlenB)
      (68 + leFromBytes vlenB + 4)) = leFromBytes glenB := by rw [hGL.2]
  have sG : pyDecodeUtf8 "git_url" (pySlice data (68 + leFromBytes vlenB + 4)
      (68 + leFromBytes vlenB + 4 + leFromBytes glenB)) = .ok git := by
    rw [hGB.2]; exact hGD
  have hcl : leFromBytes (pySlice data (68 + leFromBytes vlenB + 4 + leFromBytes glenB)
      (68 + leFromBytes vlenB + 4 + leFromBytes glenB + 4)) = leFromBytes clenB := by
    rw [hCL.2]
  have sC : pyDecodeUtf8 "commit"
      (pySlice data (68 + leFromBytes vlenB + 4 + leFromBytes glenB + 4)
      (68 + leFromBytes vlenB + 4 + leFromBytes glenB + 4 + leFromBytes clenB)) =
      .ok com := by rw [hCB.2]; exact hCD
  have hal : leFromBytes (pySlice data
      (68 + leFromBytes vlenB + 4 + leFromBytes glenB + 4 + leFromBytes clenB)
      (68 + leFromBytes vlenB + 4 + leFromBytes glenB + 4 + leFromBytes clenB + 4)) =
      leFromBytes alenB := by rw [hAL.2]
  have sArgs : readArgs data (leFromBytes alenB)
      (68 + leFromBytes vlenB + 4 + leFromBytes glenB + 4 + leFromBytes clenB + 4) =
      .ok (args, posEnd) := readArgsSpec_to_py data _ _ _ _ hAR
  have hsl : leFromBytes (pySlice data posEnd (posEnd + 8)) = leFromBytes slotB := by
    rw [hSL.2]
  have sBump : pyIndex data (posEnd + 8) = .ok (leFromBytes bumpB) := by
    rw [pyIndex_eq data (posEnd + 8) (by omega), hBU.2]
  simp only [deserialize_account_data, sA, sS, hvl, sV, hgl, sG, hcl, sC, hal,
    sArgs, hsl, sBump]
  exact h

theorem py_ok_imp_spec (data : List Nat) (r : OtterVerifyBuildParams)
    (h : deserialize_account_data data = .ok r) : decodeSpec data = .ok r := by
  unfold deserialize_account_data at h
  split at h
  · exact absurd h (by simp)
  rename_i addrB hA
  try dsimp only at h
  split at h
  · exact absurd h (by simp)
  rename_i sigB hS
  try dsimp only at h
  split at h
  · exact absurd h (by simp)
  rename_i ver hVD
  try dsimp only at h
  split at h
  · exact absurd h (by simp)
  rename_i git hGD
  try dsimp only at h
  split at h
  · exact absurd h (by simp)
  rename_i com hCD
  try dsimp only at h
  split at h
  · exact absurd h (by simp)
  rename_i args posEnd hAR
  try dsimp only at h
  split at h
  · exact absurd h (by simp)
  rename_i bump hBU
  rw [pubkeyFromBytes_ok_iff] at hA hS
  have hk1 := hA.1
  have hk2 := hS.1
  rw [pySlice_length] at hk1 hk2
  have hbound := pyIndex_ok_bound data _ _ hBU
  have hmono := readArgs_mono data _ _ _ _ hAR
  have hbv : leFromBytes (pySlice data (posEnd + 8) (posEnd + 8 + 1)) = bump := by
    rw [pyIndex_eq data (posEnd + 8) (by omega)] at hBU
    exact Except.ok.inj hBU
  unfold decodeSpec
  rw [(readBytes_ok_iff data 0 32 addrB).mpr ⟨by omega, by simpa using hA.2⟩]
  try dsimp only
  rw [(readBytes_ok_iff data 32 32 sigB).mpr ⟨by omega, by simpa using hS.2⟩]
  try dsimp only
  rw [(readBytes_ok_iff data 64 4 (pySlice data 64 68)).mpr ⟨by omega, by norm_num⟩]
  try dsimp only
  rw [(readBytes_ok_iff data 68 (leFromBytes (pySlice data 64 68))
    (pySlice data 68 (68 + leFromBytes (pySlice data 64 68)))).mpr
    ⟨by omega, rfl⟩]
  try dsimp only
  rw [hVD]
  try dsimp only
  rw [(readBytes_ok_iff data (68 + leFromBytes (pySlice data 64 68)) 4
    (pySlice data (68 + leFromBytes (pySlice data 64 68))
      (68 + leFromBytes (pySlice data 64 68) + 4))).mpr ⟨by omega, rfl⟩]
  try dsimp only
  rw [(readBytes_ok_iff data (68 + leFromBytes (pySlice data 64 68) + 4) _ _).mpr
    ⟨by omega, rfl⟩]
  try dsimp only
  rw [hGD]
  try dsimp only
  rw [(readBytes_ok_iff data _ 4 _).mpr ⟨by omega, rfl⟩]
  try dsimp only
  rw [(readBytes_ok_iff data _ _ _).mpr ⟨by omega, rfl⟩]
  try dsimp only
  rw [hCD]
  try dsimp only
  rw [(readBytes_ok_iff data _ 4 _).mpr ⟨by omega, rfl⟩]
  try dsimp only
  rw [readArgs_to_spec data _ _ _ _ hAR (by omega)]
  try dsimp only
  rw [(readBytes_ok_iff data posEnd 8 (pySlice data posEnd (posEnd + 8))).mpr
    ⟨by omega, rfl⟩]
  try dsimp only
  rw [(readBytes_ok_iff data (posEnd + 8) 1
    (pySlice data (posEnd + 8) (posEnd + 8 + 1))).mpr ⟨by omega, rfl⟩]
  try dsimp only
  rw [hbv]
  exact h

theorem pyDecodeUtf8_nil (f : String) : pyDecodeUtf8 f [] = .ok [] := rfl

theorem argRegions_find_err (data : List Nat) :
    ∀ (n pos : Nat) (f : String) (bs : List Nat),
    (argRegions data n pos).find? (fun p => !(validUtf8 p.2)) = some (f, bs) →
    readArgs data n pos = .error (.invalidEncoding f) := by
  intro n
  induction n with
  | zero => intro pos f bs h; simp [argRegions] at h
  | succ n ih =>
    intro pos f bs h
    unfold argRegions at h
    dsimp only at h
    cases hv : validUtf8 (pySlice data (pos + 4)
        (pos + 4 + leFromBytes (pySlice data pos (pos + 4)))) with
    | false =>
      rw [List.find?_cons_of_pos _ (by simp [hv])] at h
      simp only [Option.some.injEq, Prod.mk.injEq] at h
      unfold readArgs
      dsimp only
      simp [pyDecodeUtf8, hv, h.1]
    | true =>
      rw [List.find?_cons_of_neg _ (by simp [hv])] at h
      unfold readArgs
      dsimp only
      simp [pyDecodeUtf8, hv, ih _ _ _ h]

theorem trunc_inside_version_prefix (data : List Nat)
    (h1 : 64 < data.length) (h2 : data.length < 68) :
    deserialize_account_data data = .error .truncatedRecord := by
  have hsA : pubkeyFromBytes (pySlice data 0 32) = .ok (pySlice data 0 32) := by
    rw [pubkeyFromBytes_ok_iff]
    exact ⟨by rw [pySlice_length]; omega, rfl⟩
  have hsS : pubkeyFromBytes (pySlice data 32 64) = .ok (pySlice data 32 64) := by
    rw [pubkeyFromBytes_ok_iff]
    exact ⟨by rw [pySlice_length]; omega, rfl⟩
  set vl := leFromBytes (pySlice data 64 68) with hvl
  have e1 : pySlice data 68 (68 + vl) = [] := pySlice_nil_of_le data _ _ (by omega)
  have e2 : pySlice data (68 + vl) (68 + vl + 4) = [] :=
    pySlice_nil_of_le data _ _ (by omega)
  have e3 : pySlice data (68 + vl + 4) (68 + vl + 4) = [] :=
    pySlice_nil_of_le data _ _ (by omega)
  have e4 : pySlice data (68 + vl + 4) (68 + vl + 4 + 4) = [] :=
    pySlice_nil_of_le data _ _ (by omega)
  have e5 : pySlice data (68 + vl + 4 + 4) (68 + vl + 4 + 4) = [] :=
    pySlice_nil_of_le data _ _ (by omega)
  have e6 : pySlice data (68 + vl + 4 + 4) (68 + vl + 4 + 4 + 4) = [] :=
    pySlice_nil_of_le data _ _ (by omega)
  have e8 : pyIndex data (68 + vl + 4 + 4 + 4 + 8) = .error .truncatedRecord := by
    unfold pyIndex
    rw [dif_neg]
    omega
  simp only [deserialize_account_data, hsA, hsS, ← hvl, e1, e2, e3, e4, e5, e6,
    leFromBytes_nil, Nat.add_zero, pyDecodeUtf8_nil, readArgs, e8]

theorem validUtf8_nil : validUtf8 [] = true := rfl

theorem invalid_region_err (data : List Nat) (f : String) (bs : List Nat)
    (h : (stringRegions data).find? (fun p => !(validUtf8 p.2)) = some (f, bs)) :
    deserialize_account_data data = .error (.invalidEncoding f) := by
  unfold stringRegions at h
  dsimp only at h
  by_cases hlen : 64 ≤ data.length
  case neg =>
    exfalso
    set vl := leFromBytes (pySlice data 64 68) with hvl
    have e1 : pySlice data 68 (68 + vl) = [] := pySlice_nil_of_le data _ _ (by omega)
    have e2 : pySlice data (68 + vl) (68 + vl + 4) = [] :=
      pySlice_nil_of_le data _ _ (by omega)
    have e3 : pySlice data (68 + vl + 4) (68 + vl + 4) = [] :=
      pySlice_nil_of_le data _ _ (by omega)
    have e4 : pySlice data (68 + vl + 4) (68 + vl + 4 + 4) = [] :=
      pySlice_nil_of_le data _ _ (by omega)
    have e5 : pySlice data (68 + vl + 4 + 4) (68 + vl + 4 + 4) = [] :=
      pySlice_nil_of_le data _ _ (by omega)
    have e6 : pySlice data (68 + vl + 4 + 4) (68 + vl + 4 + 4 + 4) = [] :=
      pySlice_nil_of_le data _ _ (by omega)
    simp only [← hvl, e1, e2, e3, e4, e5, e6, leFromBytes_nil, Nat.add_zero,
      argRegions, List.find?, validUtf8_nil, Bool.not_true] at h
    exact Option.noConfusion h
  case pos =>
    have hsA : pubkeyFromBytes (pySlice data 0 32) = .ok (pySlice data 0 32) := by
      rw [pubkeyFromBytes_ok_iff]
      exact ⟨by rw [pySlice_length]; omega, rfl⟩
    have hsS : pubkeyFromBytes (pySlice data 32 64) = .ok (pySlice data 32 64) := by
      rw [pubkeyFromBytes_ok_iff]
      exact ⟨by rw [pySlice_length]; omega, rfl⟩
    unfold deserialize_account_data
    dsimp only
    simp only [hsA, hsS]
    generalize leFromBytes (pySlice data 64 68) = vl at h ⊢
    generalize hVb : pySlice data 68 (68 + vl) = Vb at h ⊢
    cases hv : validUtf8 Vb with
    | false =>
      rw [List.find?_cons_of_pos _ (by simp [hv])] at h
      simp only [Option.some.injEq, Prod.mk.injEq] at h
      simp [pyDecodeUtf8, hv, h.1]
    | true =>
      rw [List.find?_cons_of_neg _ (by simp [hv])] at h
      simp only [show pyDecodeUtf8 "version" Vb = .ok Vb from by simp [pyDecodeUtf8, hv]]
      generalize leFromBytes (pySlice data (68 + vl) (68 + vl + 4)) = gl at h ⊢
      generalize hGb : pySlice data (68 + vl + 4) (68 + vl + 4 + gl) = Gb at h ⊢
      cases hg : validUtf8 Gb with
      | false =>
        rw [List.find?_cons_of_pos _ (by simp [hg])] at h
        simp only [Option.some.injEq, Prod.mk.injEq] at h
        simp [pyDecodeUtf8, hg, h.1]
      | true =>
        rw [List.find?_cons_of_neg _ (by simp [hg])] at h
        simp only [show pyDecodeUtf8 "git_url" Gb = .ok Gb from by
          simp [pyDecodeUtf8, hg]]
        generalize leFromBytes (pySlice data (68 + vl + 4 + gl)
          (68 + vl + 4 + gl + 4)) = cl at h ⊢
        generalize hCb : pySlice data (68 + vl + 4 + gl + 4)
          (68 + vl + 4 + gl + 4 + cl) = Cb at h ⊢
        cases hc : validUtf8 Cb with
        | false =>
          rw [List.find?_cons_of_pos _ (by simp [hc])] at h
          simp only [Option.some.injEq, Prod.mk.injEq] at h
          simp [pyDecodeUtf8, hc, h.1]
        | true =>
          rw [List.find?_cons_of_neg _ (by simp [hc])] at h
          simp only [show pyDecodeUtf8 "commit" Cb = .ok Cb from by
            simp [pyDecodeUtf8, hc]]
          generalize leFromBytes (pySlice data (68 + vl + 4 + gl + 4 + cl)
            (68 + vl + 4 + gl + 4 + cl + 4)) = al at h ⊢
          rw [argRegions_find_err data al _ f bs h]

/-- C1, counterexample: a buffer of 69 bytes whose version length prefix
reads 2, so the version field read (bytes 68..70) extends past the end of
the buffer, yet the single remaining byte 0xC3 is an invalid UTF-8
sequence, so decoding fails with `InvalidEncoding "version"`, not with
`TruncatedRecord` as the claim requires (the table decoder `decodeSpec`
does report `TruncatedRecord` there). -/
theorem C1_counterexample :
    (List.replicate 64 0 ++ [2, 0, 0, 0, 0xC3] : List Nat).length <
      68 + leFromBytes (pySlice (List.replicate 64 0 ++ [2, 0, 0, 0, 0xC3]) 64 68) ∧
    decodeSpec (List.replicate 64 0 ++ [2, 0, 0, 0, 0xC3]) =
      .error .truncatedRecord ∧
    deserialize_account_data (List.replicate 64 0 ++ [2, 0, 0, 0, 0xC3]) =
      .error (.invalidEncoding "version") := by
  refine ⟨by decide, by decide, by decide⟩

/-- C1, amended: whenever a field read would extend past the end of the
buffer (the table decoder reports `TruncatedRecord`), the decoder fails
and returns no record — with `TruncatedRecord`, or with `InvalidEncoding`
when the clamped bytes of a string field fail UTF-8 decoding first; a
buffer truncated inside the `version` length prefix (length strictly
between 64 and 68) fails with `TruncatedRecord`. -/
theorem C1_truncation_amended (data : List Nat) :
    (decodeSpec data = .error .truncatedRecord →
      deserialize_account_data data = .error .truncatedRecord ∨
      ∃ g, deserialize_account_data data = .error (.invalidEncoding g)) ∧
    (64 < data.length → data.length < 68 →
      deserialize_account_data data = .error .truncatedRecord) := by
  constructor
  · intro hspec
    cases hpy : deserialize_account_data data with
    | ok r =>
      have := py_ok_imp_spec data r hpy
      rw [hspec] at this
      exact Except.noConfusion this
    | error e =>
      cases e with
      | truncatedRecord => exact Or.inl rfl
      | invalidEncoding g => exact Or.inr ⟨g, rfl⟩
  · exact trunc_inside_version_prefix data

/-- C1, witness: a 66-byte buffer is truncated inside the version length
prefix; the table decoder reports `TruncatedRecord` and so does
`deserialize_account_data`. -/
theorem C1_truncation_amended_witness :
    decodeSpec (List.replicate 66 0) = .error .truncatedRecord ∧
    deserialize_account_data (List.replicate 66 0) = .error .truncatedRecord :=
  ⟨by decide, (C1_truncation_amended (List.replicate 66 0)).2 (by decide) (by decide)⟩

/-- C2: on every buffer accepted by the table decoder of section 4.2
(sequential cursor from offset 0, address in bytes 0..32, signer in bytes
32..64, then the three length-prefixed strings, the counted args list,
the 8-byte `deploy_slot` and the 1-byte `bump`, every read in bounds and
every string field valid UTF-8), `deserialize_account_data` returns
exactly the table decoder's record. -/
theorem C2_table_order_decode (data : List Nat) (r : OtterVerifyBuildParams)
    (h : decodeSpec data = .ok r) : deserialize_account_data data = .ok r :=
  decodeSpec_ok_imp_py data r h

/-- C2, witness: a concrete 85-byte well-formed buffer with one arg. -/
theorem C2_table_order_decode_witness :
    decodeSpec (List.replicate 64 0 ++
      [0, 0, 0, 0, 0, 0, 0, 0, 0, 0, 0, 0, 1, 0, 0, 0, 2, 0, 0, 0, 65, 66,
        9, 0, 0, 0, 0, 0, 0, 0, 7]) =
      .ok { address := List.replicate 32 0, signer := List.replicate 32 0,
            version := [], git_url := [], commit := [], args := [[65, 66]],
            deploy_slot := 9, bump := 7 } ∧
    deserialize_account_data (List.replicate 64 0 ++
      [0, 0, 0, 0, 0, 0, 0, 0, 0, 0, 0, 0, 1, 0, 0, 0, 2, 0, 0, 0, 65, 66,
        9, 0, 0, 0, 0, 0, 0, 0, 7]) =
      .ok { address := List.replicate 32 0, signer := List.replicate 32 0,
            version := [], git_url := [], commit := [], args := [[65, 66]],
            deploy_slot := 9, bump := 7 } :=
  ⟨by decide, C2_table_order_decode _ _ (by decide)⟩

/-- C3: serializing the field values of a well-formed record (32-byte
keys, UTF-8-valid strings with u32-sized lengths, u64 slot, u8 bump)
according to the byte-layout table of section 4.2 and decoding the result
yields the original record. -/
theorem C3_roundtrip (r : OtterVerifyBuildParams) (h : WfRecord r) :
    deserialize_account_data (serializeAccount r) = .ok r := by
  obtain ⟨addr, sig, ver, git, com, args, slot, bump⟩ := r
  simp only [WfRecord] at h
  obtain ⟨h1, h2, h3, h4, h5, h6, h7, h8, h9, h10, h11, h12⟩ := h
  have := decode_encode_aux addr sig ver git com args slot bump []
    h1 h2 h3 h4 h5 h6 h7 h8 h9 h10 h11 h12
  simpa using this

/-- C3, witness: a concrete record with a one-byte version string and a
one-element args list round-trips. -/
theorem C3_roundtrip_witness :
    WfRecord { address := List.replicate 32 1, signer := List.replicate 32 2,
               version := [118], git_url := [], commit := [103],
               args := [[45], []], deploy_slot := 77, bump := 255 } ∧
    deserialize_account_data (serializeAccount
      { address := List.replicate 32 1, signer := List.replicate 32 2,
        version := [118], git_url := [], commit := [103],
        args := [[45], []], deploy_slot := 77, bump := 255 }) =
      .ok { address := List.replicate 32 1, signer := List.replicate 32 2,
            version := [118], git_url := [], commit := [103],
            args := [[45], []], deploy_slot := 77, bump := 255 } :=
  ⟨by decide, C3_roundtrip _ (by decide)⟩

/-- C4: whenever some string field region of the buffer (version,
git_url, commit or an args element, located by the decoder's own cursor
arithmetic) holds bytes that are not valid UTF-8,
`deserialize_account_data` fails with `InvalidEncoding` carrying the name
of the first offending field, and returns no record. -/
theorem C4_invalid_encoding (data : List Nat) (f : String) (bs : List Nat)
    (h : (stringRegions data).find? (fun p => !(validUtf8 p.2)) = some (f, bs)) :
    deserialize_account_data data = .error (.invalidEncoding f) :=
  invalid_region_err data f bs h

/-- C4, witness: a buffer whose git_url field holds the lone byte 0xFF,
an invalid UTF-8 sequence (the example of the spec's section 8). -/
theorem C4_invalid_encoding_witness :
    (stringRegions (List.replicate 64 0 ++ [0, 0, 0, 0, 1, 0, 0, 0, 0xFF])).find?
      (fun p => !(validUtf8 p.2)) = some ("git_url", [0xFF]) ∧
    deserialize_account_data (List.replicate 64 0 ++ [0, 0, 0, 0, 1, 0, 0, 0, 0xFF]) =
      .error (.invalidEncoding "git_url") :=
  ⟨by decide, C4_invalid_encoding _ "git_url" [0xFF] (by decide)⟩

/-- C10: appending arbitrary extra bytes after the bump byte of a
complete table-layout encoding does not change the decode result: both
the extended and the exact-length buffer decode to the encoded record. -/
theorem C10_trailing_bytes (r : OtterVerifyBuildParams) (extra : List Nat)
    (h : WfRecord r) :
    deserialize_account_data (serializeAccount r ++ extra) = .ok r ∧
    deserialize_account_data (serializeAccount r) = .ok r := by
  obtain ⟨addr, sig, ver, git, com, args, slot, bump⟩ := r
  simp only [WfRecord] at h
  obtain ⟨h1, h2, h3, h4, h5, h6, h7, h8, h9, h10, h11, h12⟩ := h
  refine ⟨decode_encode_aux addr sig ver git com args slot bump extra
    h1 h2 h3 h4 h5 h6 h7 h8 h9 h10 h11 h12, ?_⟩
  have := decode_encode_aux addr sig ver git com args slot bump []
    h1 h2 h3 h4 h5 h6 h7 h8 h9 h10 h11 h12
  simpa using this

/-- C10, witness: a concrete record decoded with three trailing junk
bytes appended. -/
theorem C10_trailing_bytes_witness :
    WfRecord { address := List.replicate 32 3, signer := List.replicate 32 4,
               version := [49], git_url := [104], commit := [],
               args := [], deploy_slot := 12, bump := 201 } ∧
    deserialize_account_data (serializeAccount
      { address := List.replicate 32 3, signer := List.replicate 32 4,
        version := [49], git_url := [104], commit := [],
        args := [], deploy_slot := 12, bump := 201 } ++ [1, 2, 3]) =
      .ok { address := List.replicate 32 3, signer := List.replicate 32 4,
            version := [49], git_url := [104], commit := [],
            args := [], deploy_slot := 12, bump := 201 } :=
  ⟨by decide, (C10_trailing_bytes _ [1, 2, 3] (by decide)).1⟩

/-- Modelled from the spec: a node of the external SyntaxTreeProvider's
concrete syntax tree (section 2) — a kind, a byte range into the source
text, an optional name-designated child (kept as its byte range), and the
ordered child nodes.  The sibling chain used by the extractor is the
parent's child list; byte offsets index the source text sequence. -/
inductive STree where
  | mk (kind : String) (startByte endByte : Nat)
      (nameRange : Option (Nat × Nat)) (children : List STree)

def STree.kind : STree → String
  | .mk k _ _ _ _ => k

def STree.startByte : STree → Nat
  | .mk _ s _ _ _ => s

def STree.endByte : STree → Nat
  | .mk _ _ e _ _ => e

def STree.nameRange : STree → Option (Nat × Nat)
  | .mk _ _ _ n _ => n

def STree.children : STree → List STree
  | .mk _ _ _ _ cs => cs

/-- Python `source_code[a:b]`: the verbatim source slice between two
byte offsets. -/
def srcSlice (content : List Char) (a b : Nat) : String :=
  ⟨(content.drop a).take (b - a)⟩

/-- `RustFunction` (src/main.py, lines 19-26). -/
structure RustFunction where
  name : String
  content : String
  start_line : Nat
  end_line : Nat
  attributes : List String
  docstring : Option String
deriving DecidableEq, Repr

/-- The comment-collection loop of `RustParser.extract_docstring`
(src/main.py, lines 36-40) over the chain of preceding siblings, nearest
first: while the preceding sibling is a `line_comment`, prepend its
verbatim text (prepending while walking outward produces source order,
here the append after the recursive call). -/
def commentTexts (content : List Char) : List STree → List String
  | [] => []
  | t :: rest =>
    if t.kind = "line_comment"
    then commentTexts content rest ++ [srcSlice content t.startByte t.endByte]
    else []

/-- `RustParser.extract_docstring` (src/main.py, lines 33-42):
newline-join of the contiguous leading line comments, `None` when there
are none. -/
def extract_docstring (content : List Char) (prevs : List STree) : Option String :=
  match commentTexts content prevs with
  | [] => none
  | comments => some (String.intercalate "\n" comments)

/-- `RustParser.extract_attributes` (src/main.py, lines 44-54): while
the preceding sibling is an `attribute_item`, prepend its verbatim
text. -/
def extract_attributes (content : List Char) : List STree → List String
  | [] => []
  | t :: rest =>
    if t.kind = "attribute_item"
    then extract_attributes content rest ++ [srcSlice content t.startByte t.endByte]
    else []

/-- The per-match body of `RustParser.parse_file` (src/main.py, lines
73-96): skip the node when it has no name child, otherwise build the
record — verbatim content slice, 1-based line numbers by counting
newlines strictly before the start and end byte offsets in the whole
text, attributes and docstring from the preceding-sibling chain. -/
def buildRecord (content : List Char) (t : STree) (prevs : List STree) :
    Option RustFunction :=
  match t.nameRange with
  | none => none
  | some (a, b) => some
      { name := srcSlice content a b,
        content := srcSlice content t.startByte t.endByte,
        start_line := (content.take t.startByte).count '\n' + 1,
        end_line := (content.take t.endByte).count '\n' + 1,
        attributes := extract_attributes content prevs,
        docstring := extract_docstring content prevs }

/-- The `(function_item) @function` query of `RustParser.parse_file`
(src/main.py, lines 64-73): every `function_item` node in document order
(pre-order), regardless of nesting depth, paired with its chain of
preceding siblings, nearest first. -/
def fnsOfChildren : List STree → List STree → List (STree × List STree)
  | [], _ => []
  | STree.mk k s e n cs :: rest, prevs =>
    (if k = "function_item" then [(STree.mk k s e n cs, prevs)] else []) ++
    fnsOfChildren cs [] ++
    fnsOfChildren rest (STree.mk k s e n cs :: prevs)

/-- `RustParser.parse_file` (src/main.py, lines 56-98) after parsing: one
record per named `function_item` node, in document order. -/
def parse_file (content : List Char) (tree : STree) : List RustFunction :=
  (fnsOfChildren [tree] []).filterMap (fun p => buildRecord content p.1 p.2)

/-- Names of the named function nodes in pre-order, by an independent
structural recursion (the reference order/count for C8). -/
def fnNameList (content : List Char) : List STree → List String
  | [] => []
  | STree.mk k _ _ n cs :: rest =>
    (if k = "function_item" then
      match n with
      | some (a, b) => [srcSlice content a b]
      | none => []
    else []) ++ fnNameList content cs ++ fnNameList content rest

/-- The `function_item` nodes in pre-order (the reference node list for
C9). -/
def fnNodeList : List STree → List STree
  | [] => []
  | STree.mk k s e n cs :: rest =>
    (if k = "function_item" then [STree.mk k s e n cs] else []) ++
    fnNodeList cs ++ fnNodeList rest

/-- Well-formed byte ranges: the tree provider guarantees
`startByte ≤ endByte` on every node. -/
def wfChildren : List STree → Bool
  | [] => true
  | STree.mk _ s e _ cs :: rest =>
    decide (s ≤ e) && wfChildren cs && wfChildren rest

theorem count_take_mono (l : List Char) (c : Char) (s e : Nat) (h : s ≤ e) :
    (l.take s).count c ≤ (l.take e).count c := by
  have h1 : l.take s = (l.take e).take s := by
    rw [List.take_take, min_eq_left h]
  rw [h1]
  exact (List.take_sublist s (l.take e)).count_le c

theorem mem_fnsOfChildren_wf (t : STree) (ps : List STree) :
    ∀ (ts prevs : List STree), wfChildren ts = true →
    (t, ps) ∈ fnsOfChildren ts prevs → t.startByte ≤ t.endByte := by
  intro ts prevs
  induction ts, prevs using fnsOfChildren.induct with
  | case1 x => intro _ hmem; simp [fnsOfChildren] at hmem
  | case2 k s e n cs rest prevs ih1 ih2 =>
    intro hwf hmem
    unfold wfChildren at hwf
    simp only [Bool.and_eq_true, decide_eq_true_eq] at hwf
    unfold fnsOfChildren at hmem
    simp only [List.mem_append] at hmem
    rcases hmem with (hmem | hmem) | hmem
    · by_cases hk : k = "function_item"
      · rw [if_pos hk] at hmem
        simp only [List.mem_singleton, Prod.mk.injEq] at hmem
        rw [hmem.1]
        exact hwf.1.1
      · rw [if_neg hk] at hmem
        simp at hmem
    · exact ih1 hwf.1.2 hmem
    · exact ih2 hwf.2 hmem

theorem parse_names_aux (content : List Char) :
    ∀ (ts prevs : List STree),
    ((fnsOfChildren ts prevs).filterMap (fun p => buildRecord content p.1 p.2)).map
      (fun r => r.name) = fnNameList content ts := by
  intro ts prevs
  induction ts, prevs using fnsOfChildren.induct with
  | case1 x => simp [fnsOfChildren, fnNameList]
  | case2 k s e n cs rest prevs ih1 ih2 =>
    unfold fnsOfChildren fnNameList
    simp only [List.filterMap_append, List.map_append, ih1, ih2]
    congr 1
    congr 1
    by_cases hk : k = "function_item"
    · rw [if_pos hk, if_pos hk]
      cases n with
      | none => simp [buildRecord, STree.nameRange]
      | some ab =>
        obtain ⟨a, b⟩ := ab
        simp [buildRecord, STree.nameRange, srcSlice]
    · rw [if_neg hk, if_neg hk]
      simp

theorem parse_len_aux (content : List Char) :
    ∀ (ts prevs : List STree),
    ((fnsOfChildren ts prevs).filterMap (fun p => buildRecord content p.1 p.2)).length =
      ((fnNodeList ts).filter (fun t => t.nameRange.isSome)).length := by
  intro ts prevs
  induction ts, prevs using fnsOfChildren.induct with
  | case1 x => simp [fnsOfChildren, fnNodeList]
  | case2 k s e n cs rest prevs ih1 ih2 =>
    unfold fnsOfChildren fnNodeList
    simp only [List.filterMap_append, List.filter_append, List.length_append, ih1, ih2]
    congr 1
    congr 1
    by_cases hk : k = "function_item"
    · rw [if_pos hk, if_pos hk]
      cases n with
      | none => simp [buildRecord, STree.nameRange]
      | some ab =>
        obtain ⟨a, b⟩ := ab
        simp [buildRecord, STree.nameRange]
    · rw [if_neg hk, if_neg hk]
      simp

/-- The source text of the spec's section 8 example
`// doc\n#[attr]\nfn f(){}`. -/
def exC5content : List Char := ("// doc\n#[attr]\nfn f()\x7b\x7d").data

/-- Modelled from the spec: the syntax tree of `exC5content` — the
line comment, the attribute marker and the function definition are
siblings at top level, the function's name child spans byte 18..19. -/
def exC5tree : STree := .mk "source_file" 0 23 none
  [.mk "line_comment" 0 6 none [],
   .mk "attribute_item" 7 14 none [],
   .mk "function_item" 15 23 (some (18, 19)) []]

/-- C5: the docstring is collected only from line-comment siblings
immediately adjacent to the function node — whenever the nearest
preceding sibling is not a line comment (for instance an attribute
marker), the docstring is `None` even if comments sit further up the
chain; on the spec's example `// doc\n#[attr]\nfn f(){}` the single
record carries `attributes = ["#[attr]"]` and no docstring. -/
theorem C5_docstring_adjacency :
    (∀ (content : List Char) (t : STree) (rest : List STree),
      t.kind ≠ "line_comment" → extract_docstring content (t :: rest) = none) ∧
    parse_file exC5content exC5tree =
      [{ name := "f", content := "fn f()\x7b\x7d", start_line := 3, end_line := 3,
         attributes := ["#[attr]"], docstring := none }] := by
  constructor
  · intro content t rest hk
    have h : commentTexts content (t :: rest) = [] := by
      unfold commentTexts
      rw [if_neg hk]
    unfold extract_docstring
    rw [h]
  · simp [parse_file, fnsOfChildren, buildRecord, extract_attributes,
      extract_docstring, commentTexts, srcSlice, exC5content, exC5tree,
      STree.kind, STree.nameRange, STree.startByte, STree.endByte]

/-- C5, witness: in the example tree, the function's nearest preceding
sibling is the attribute marker, so the docstring is dropped although a
comment exists one step further up the chain. -/
theorem C5_docstring_adjacency_witness :
    extract_docstring exC5content
      [STree.mk "attribute_item" 7 14 none [],
       STree.mk "line_comment" 0 6 none []] = none :=
  C5_docstring_adjacency.1 exC5content (STree.mk "attribute_item" 7 14 none [])
    [STree.mk "line_comment" 0 6 none []] (by decide)

/-- C6: the attributes of an extracted function are exactly the verbatim
texts of the maximal run of attribute-marker siblings immediately
preceding the function (given nearest first, reported in source order,
top to bottom), the chain stopping at the first sibling of another kind
or at the end of the sibling list; in particular K contiguous markers
yield a list of length K. -/
theorem C6_attributes (content : List Char) (atts rest : List STree)
    (hatts : ∀ t ∈ atts, t.kind = "attribute_item")
    (hrest : rest = [] ∨ ∃ h tl, rest = h :: tl ∧ h.kind ≠ "attribute_item") :
    extract_attributes content (atts ++ rest) =
      (atts.map (fun t => srcSlice content t.startByte t.endByte)).reverse ∧
    (extract_attributes content (atts ++ rest)).length = atts.length := by
  have hmain : extract_attributes content (atts ++ rest) =
      (atts.map (fun t => srcSlice content t.startByte t.endByte)).reverse := by
    induction atts with
    | nil =>
      simp only [List.nil_append, List.map_nil, List.reverse_nil]
      rcases hrest with hrest | ⟨h, tl, hrest, hk⟩
      · rw [hrest]; rfl
      · rw [hrest]
        unfold extract_attributes
        rw [if_neg hk]
    | cons a as ih =>
      have ha := hatts a (by simp)
      unfold extract_attributes
      rw [List.cons_append]
      dsimp only
      rw [if_pos ha, ih (fun t ht => hatts t (by simp [ht]))]
      simp
  exact ⟨hmain, by rw [hmain]; simp⟩

/-- C6, witness: two contiguous attribute markers before a function,
with a line comment further up breaking the chain, yield exactly the two
marker texts in source order. -/
theorem C6_attributes_witness :
    extract_attributes exC5content
      ([STree.mk "attribute_item" 7 14 none [],
        STree.mk "attribute_item" 0 6 none []] ++
       [STree.mk "line_comment" 0 6 none []]) =
      ([STree.mk "attribute_item" 7 14 none [],
        STree.mk "attribute_item" 0 6 none []].map
        (fun t => srcSlice exC5content t.startByte t.endByte)).reverse ∧
    (extract_attributes exC5content
      ([STree.mk "attribute_item" 7 14 none [],
        STree.mk "attribute_item" 0 6 none []] ++
       [STree.mk "line_comment" 0 6 none []])).length = 2 :=
  C6_attributes exC5content
    [STree.mk "attribute_item" 7 14 none [], STree.mk "attribute_item" 0 6 none []]
    [STree.mk "line_comment" 0 6 none []]
    (by decide)
    (Or.inr ⟨STree.mk "line_comment" 0 6 none [], [], rfl, by decide⟩)

/-- A source text with 3 newlines before the function's start byte (12)
and 5 before its end byte (22): `//x\n//y\n//z\nfn f(){\n\n}`. -/
def exC7content : List Char := ("//x\n//y\n//z\nfn f()\x7b\n\n\x7d").data

/-- Modelled from the spec: the syntax tree of `exC7content` — three
line comments then the function definition, name child at bytes
15..16. -/
def exC7tree : STree := .mk "source_file" 0 22 none
  [.mk "line_comment" 0 3 none [],
   .mk "line_comment" 4 7 none [],
   .mk "line_comment" 8 11 none [],
   .mk "function_item" 12 22 (some (15, 16)) []]

/-- C7: on a function whose start byte is preceded by 3 newlines of the
whole file text and whose end byte by 5, the record has
`start_line = 4` and `end_line = 6` (1-based, newline counts strictly
before the byte offsets); and on every tree whose byte ranges are
well-formed (`startByte ≤ endByte`, guaranteed by the tree provider),
every extracted record satisfies `start_line ≤ end_line`. -/
theorem C7_line_numbers :
    ((exC7content.take 12).count '\n' = 3 ∧
     (exC7content.take 22).count '\n' = 5 ∧
     parse_file exC7content exC7tree =
      [{ name := "f", content := "fn f()\x7b\n\n\x7d", start_line := 4, end_line := 6,
         attributes := [], docstring := some "//x\n//y\n//z" }]) ∧
    (∀ (content : List Char) (tree : STree) (r : RustFunction),
      wfChildren [tree] = true → r ∈ parse_file content tree →
      r.start_line ≤ r.end_line) := by
  constructor
  · refine ⟨by decide, by decide, ?_⟩
    simp only [parse_file, fnsOfChildren, buildRecord, extract_attributes,
      extract_docstring, commentTexts, srcSlice, exC7content, exC7tree,
      STree.kind, STree.nameRange, STree.startByte, STree.endByte]
    decide
  · intro content tree r hwf hr
    unfold parse_file at hr
    rw [List.mem_filterMap] at hr
    obtain ⟨⟨t, ps⟩, hmem, hbuild⟩ := hr
    have hse := mem_fnsOfChildren_wf t ps [tree] [] hwf hmem
    unfold buildRecord at hbuild
    split at hbuild
    · exact absurd hbuild (by simp)
    rename_i a b hn
    simp only [Option.some.injEq] at hbuild
    rw [← hbuild]
    exact Nat.add_le_add_right (count_take_mono content _ _ _ hse) 1

/-- C7, witness: the concrete example tree is well-formed and its record
satisfies the line-number claims. -/
theorem C7_line_numbers_witness :
    (exC7content.take 12).count '\n' = 3 ∧
    wfChildren [exC7tree] = true ∧
    ∀ r ∈ parse_file exC7content exC7tree, r.start_line ≤ r.end_line :=
  ⟨C7_line_numbers.1.1, by simp [wfChildren, exC7tree],
    fun r hr => C7_line_numbers.2 exC7content exC7tree r
      (by simp [wfChildren, exC7tree]) hr⟩

/-- C8: the extractor emits one record per named function-definition
node, in document order (pre-order traversal), regardless of nesting
depth — the record names agree elementwise with the independently
collected pre-order list of named `function_item` nodes. -/
theorem C8_document_order (content : List Char) (tree : STree) :
    (parse_file content tree).map (fun r => r.name) = fnNameList content [tree] :=
  parse_names_aux content [tree] []

/-- C9: function-definition nodes without a name child are silently
skipped — the number of records equals the number of `function_item`
nodes whose name child is present, and a tree holding a single nameless
function yields no record and no error. -/
theorem C9_nameless_skipped :
    (∀ (content : List Char) (tree : STree),
      (parse_file content tree).length =
        ((fnNodeList [tree]).filter (fun t => t.nameRange.isSome)).length) ∧
    parse_file []
      (.mk "source_file" 0 8 none [.mk "function_item" 0 8 none []]) = [] := by
  constructor
  · intro content tree
    exact parse_len_aux content [tree] []
  · simp [parse_file, fnsOfChildren, buildRecord, STree.kind, STree.nameRange]
